import Mathlib

/-!
Verification of the Ceph symmetric-cryptography core (auth/Crypto) and the
MOSDOpReply message payload marshalling, as exercised by src/test/crypto.cc.

The repository snapshot contains the test file (src/test/crypto.cc, including
the legacy NSS-based AES key handler) and src/messages/MOSDOpReply.h.  The
cipher primitive itself (the NSS / current-backend AES-128-CBC implementation
behind `CryptoKeyHandler`), `validate_secret`, `get_max_outbuf_size`,
`CryptoKey` and the generic `_encode`/`_decode` marshalling are external to
the snapshot and are modelled from the spec, faithful to its words:
AES-128 in CBC mode with the fixed compile-time IV "cephsageyudagreg",
PKCS#7-style padding that always adds between 1 and 16 bytes, a registry
whose key handles expose allocating and slice (probe) calling conventions,
and fixed-layout record serialization with length-prefixed buffers.

Bytes are `Nat` values `< 256`; all machine arithmetic is explicit `% 256`.
-/

set_option maxRecDepth 40000

namespace CephCrypto

/-- Modelled from the spec: the AES S-box of the block-cipher primitive
(the native crypto library is a black box correctly implementing AES);
byte `i` of this constant, counting from the least significant end, is
`S[i]` of FIPS-197. -/
def sboxNat : Nat := 0x16bb54b00f2d99416842e6bf0d89a18cdf2855cee9871e9b948ed9691198f8e19e1dc186b95735610ef6034866b53e708a8bbd4b1f74dde8c6b4a61c2e2578ba08ae7a65eaf4566ca94ed58d6d37c8e779e4959162acd3c25c2406490a3a32e0db0b5ede14b8ee4688902a22dc4f816073195d643d7ea7c41744975fec130ccdd2f3ff1021dab6bcf5389d928f40a351a89f3c507f02f94585334d43fbaaefd0cf584c4a39becb6a5bb1fc20ed00d153842fe329b3d63b52a05a6e1b1a2c830975b227ebe28012079a059618c323c7041531d871f1e5a534ccf73f362693fdb7c072a49cafa2d4adf04759fa7dc982ca76abd7fe2b670130c56f6bf27b777c63

/-- Modelled from the spec: the inverse AES S-box (same encoding). -/
def invSboxNat : Nat := 0x7d0c2155631469e126d677ba7e042b17619953833cbbebc8b0f52aae4d3be0a0ef9cc9939f7ae52d0d4ab519a97f51605fec8027591012b131c7078833a8dd1ff45acd78fec0db9a2079d2c64b3e56fc1bbe18aa0e62b76f89c5291d711af1476edf751ce837f9e28535ade72274ac9673e6b4f0cecff297eadc674f4111913a6b8a130103bdafc1020f3fca8f1e2cd00645b3b80558e4f70ad3bc8c00abd890849d8da75746155edab9edfd5048706c92b6655dcc5ca4d41698688664f6f87225d18b6d49a25b76b224d92866a12e084ec3fa420b954cee3d23c2a632947b54cbe9dec444438e3487ff2f9b8239e37cfbd7f3819ea340bf38a53630d56a0952

/-- S-box lookup on a byte. -/
def sbox (b : Nat) : Nat := (sboxNat >>> (8 * (b % 256))) &&& 255

/-- Inverse S-box lookup on a byte. -/
def invSbox (b : Nat) : Nat := (invSboxNat >>> (8 * (b % 256))) &&& 255

/-- Multiplication by x in GF(2^8) modulo the AES polynomial. -/
def xtime (b : Nat) : Nat := (if b < 128 then 2 * b else 2 * b ^^^ 27) % 256

/-- Multiplication by 2 in GF(2^8). -/
def gmul2 (b : Nat) : Nat := xtime b

/-- Multiplication by 3 in GF(2^8). -/
def gmul3 (b : Nat) : Nat := xtime b ^^^ b

/-- Multiplication by 9 in GF(2^8). -/
def gmul9 (b : Nat) : Nat := xtime (xtime (xtime b)) ^^^ b

/-- Multiplication by 11 in GF(2^8). -/
def gmul11 (b : Nat) : Nat := xtime (xtime (xtime b)) ^^^ xtime b ^^^ b

/-- Multiplication by 13 in GF(2^8). -/
def gmul13 (b : Nat) : Nat := xtime (xtime (xtime b)) ^^^ xtime (xtime b) ^^^ b

/-- Multiplication by 14 in GF(2^8). -/
def gmul14 (b : Nat) : Nat := xtime (xtime (xtime b)) ^^^ xtime (xtime b) ^^^ xtime b

theorem sbox_lt (b : Nat) : sbox b < 256 :=
  Nat.lt_succ_of_le (Nat.and_le_right)

theorem invSbox_lt (b : Nat) : invSbox b < 256 :=
  Nat.lt_succ_of_le (Nat.and_le_right)

theorem xtime_lt (b : Nat) : xtime b < 256 := Nat.mod_lt _ (by norm_num)

theorem byte_xor_lt {a b : Nat} (ha : a < 256) (hb : b < 256) : a ^^^ b < 256 := by
  have h := Nat.xor_lt_two_pow (n := 8) (by norm_num [ha] : a < 2 ^ 8)
    (by norm_num [hb] : b < 2 ^ 8)
  norm_num at h
  exact h

theorem two_mul_eq_shiftLeft (z : Nat) : 2 * z = z <<< 1 := by
  rw [Nat.shiftLeft_eq, pow_one, Nat.mul_comm]

theorem two_mul_xor (x y : Nat) : 2 * (x ^^^ y) = 2 * x ^^^ 2 * y := by
  rw [two_mul_eq_shiftLeft, two_mul_eq_shiftLeft, two_mul_eq_shiftLeft]
  apply Nat.eq_of_testBit_eq
  intro i
  rw [Nat.testBit_xor, Nat.testBit_shiftLeft, Nat.testBit_shiftLeft,
    Nat.testBit_shiftLeft, Nat.testBit_xor]
  cases h : decide (1 ≤ i) <;> simp

theorem xor_mod_256 (x y : Nat) : (x ^^^ y) % 256 = x % 256 ^^^ y % 256 := by
  have h256 : (256 : Nat) = 2 ^ 8 := by norm_num
  have hm : (255 : Nat) = 2 ^ 8 - 1 := by norm_num
  calc (x ^^^ y) % 256 = (x ^^^ y) &&& 255 := by
        rw [hm, h256, Nat.and_pow_two_sub_one_eq_mod]
    _ = (x &&& 255) ^^^ (y &&& 255) := Nat.and_xor_distrib_right
    _ = x % 256 ^^^ y % 256 := by
        rw [hm, h256, Nat.and_pow_two_sub_one_eq_mod, Nat.and_pow_two_sub_one_eq_mod]

theorem testBit7_true {x : Nat} (h1 : 128 ≤ x) (h2 : x < 256) : x.testBit 7 = true := by
  rw [Nat.testBit_to_div_mod]
  simp only [decide_eq_true_eq]
  omega

theorem testBit7_false {x : Nat} (h1 : x < 128) : x.testBit 7 = false := by
  rw [Nat.testBit_to_div_mod]
  simp only [decide_eq_false_iff_not]
  omega

theorem lt128_of_testBit7 {x : Nat} (h2 : x < 256) (h : x.testBit 7 = false) :
    x < 128 := by
  rw [Nat.testBit_to_div_mod] at h
  simp only [decide_eq_false_iff_not] at h
  omega

theorem xtime_xor {a b : Nat} (ha : a < 256) (hb : b < 256) :
    xtime (a ^^^ b) = xtime a ^^^ xtime b := by
  have hab : a ^^^ b < 256 := byte_xor_lt ha hb
  unfold xtime
  by_cases h1 : a < 128 <;> by_cases h2 : b < 128
  · have h3 : a ^^^ b < 128 := by
      have h := Nat.xor_lt_two_pow (n := 7) (by norm_num [h1] : a < 2 ^ 7)
        (by norm_num [h2] : b < 2 ^ 7)
      norm_num at h
      exact h
    simp only [if_pos h1, if_pos h2, if_pos h3]
    rw [Nat.mod_eq_of_lt (by omega), Nat.mod_eq_of_lt (by omega),
      Nat.mod_eq_of_lt (by omega), two_mul_xor]
  · have h3 : ¬ (a ^^^ b < 128) := by
      have ht : (a ^^^ b).testBit 7 = true := by
        rw [Nat.testBit_xor, testBit7_false h1, testBit7_true (by omega) hb]
        rfl
      have := Nat.testBit_implies_ge ht
      simp only [Nat.pow_succ] at this
      omega
    simp only [if_pos h1, if_neg h2, if_neg h3]
    rw [two_mul_xor, Nat.xor_assoc, xor_mod_256,
      Nat.mod_eq_of_lt (by omega : 2 * a < 256)]
  · have h3 : ¬ (a ^^^ b < 128) := by
      have ht : (a ^^^ b).testBit 7 = true := by
        rw [Nat.testBit_xor, testBit7_true (by omega) ha, testBit7_false h2]
        rfl
      have := Nat.testBit_implies_ge ht
      simp only [Nat.pow_succ] at this
      omega
    simp only [if_neg h1, if_pos h2, if_neg h3]
    have hre : 2 * a ^^^ 2 * b ^^^ 27 = (2 * a ^^^ 27) ^^^ 2 * b := by
      rw [Nat.xor_assoc, Nat.xor_comm (2 * b) 27, ← Nat.xor_assoc]
    rw [two_mul_xor, hre, xor_mod_256, Nat.mod_eq_of_lt (by omega : 2 * b < 256)]
  · have h3 : a ^^^ b < 128 := by
      apply lt128_of_testBit7 hab
      rw [Nat.testBit_xor, testBit7_true (by omega) ha, testBit7_true (by omega) hb]
      rfl
    simp only [if_neg h1, if_neg h2, if_pos h3]
    have hre : (2 * a ^^^ 27) ^^^ (2 * b ^^^ 27) = 2 * a ^^^ 2 * b := by
      have h : (2 * a ^^^ 27) ^^^ (2 * b ^^^ 27) = (2 * a ^^^ 2 * b) ^^^ (27 ^^^ 27) := by
        ac_rfl
      rw [h, Nat.xor_self, Nat.xor_zero]
    rw [← xor_mod_256, hre, two_mul_xor]

theorem gmul9_xor {a b : Nat} (ha : a < 256) (hb : b < 256) :
    gmul9 (a ^^^ b) = gmul9 a ^^^ gmul9 b := by
  unfold gmul9
  rw [xtime_xor ha hb, xtime_xor (xtime_lt a) (xtime_lt b),
    xtime_xor (xtime_lt _) (xtime_lt _)]
  ac_rfl

theorem gmul11_xor {a b : Nat} (ha : a < 256) (hb : b < 256) :
    gmul11 (a ^^^ b) = gmul11 a ^^^ gmul11 b := by
  unfold gmul11
  rw [xtime_xor ha hb, xtime_xor (xtime_lt a) (xtime_lt b),
    xtime_xor (xtime_lt _) (xtime_lt _)]
  ac_rfl

theorem gmul13_xor {a b : Nat} (ha : a < 256) (hb : b < 256) :
    gmul13 (a ^^^ b) = gmul13 a ^^^ gmul13 b := by
  unfold gmul13
  rw [xtime_xor ha hb, xtime_xor (xtime_lt a) (xtime_lt b),
    xtime_xor (xtime_lt _) (xtime_lt _)]
  ac_rfl

theorem gmul14_xor {a b : Nat} (ha : a < 256) (hb : b < 256) :
    gmul14 (a ^^^ b) = gmul14 a ^^^ gmul14 b := by
  unfold gmul14
  rw [xtime_xor ha hb, xtime_xor (xtime_lt a) (xtime_lt b),
    xtime_xor (xtime_lt _) (xtime_lt _)]
  ac_rfl

theorem gmul2_lt (t : Nat) : gmul2 t < 256 := xtime_lt t

theorem gmul3_lt {t : Nat} (ht : t < 256) : gmul3 t < 256 :=
  byte_xor_lt (xtime_lt t) ht

/-- The sixteen per-byte entries of the product of the AES InvMixColumns and
MixColumns matrices, checked exhaustively over all byte values. -/
theorem mixinv00 : ∀ t < 256, gmul14 (gmul2 t) ^^^ gmul11 t ^^^ gmul13 t ^^^ gmul9 (gmul3 t) = t := by decide

theorem mixinv01 : ∀ t < 256, gmul14 (gmul3 t) ^^^ gmul11 (gmul2 t) ^^^ gmul13 t ^^^ gmul9 t = 0 := by decide

theorem mixinv02 : ∀ t < 256, gmul14 t ^^^ gmul11 (gmul3 t) ^^^ gmul13 (gmul2 t) ^^^ gmul9 t = 0 := by decide

theorem mixinv03 : ∀ t < 256, gmul14 t ^^^ gmul11 t ^^^ gmul13 (gmul3 t) ^^^ gmul9 (gmul2 t) = 0 := by decide

theorem mixinv10 : ∀ t < 256, gmul9 (gmul2 t) ^^^ gmul14 t ^^^ gmul11 t ^^^ gmul13 (gmul3 t) = 0 := by decide

theorem mixinv11 : ∀ t < 256, gmul9 (gmul3 t) ^^^ gmul14 (gmul2 t) ^^^ gmul11 t ^^^ gmul13 t = t := by decide

theorem mixinv12 : ∀ t < 256, gmul9 t ^^^ gmul14 (gmul3 t) ^^^ gmul11 (gmul2 t) ^^^ gmul13 t = 0 := by decide

theorem mixinv13 : ∀ t < 256, gmul9 t ^^^ gmul14 t ^^^ gmul11 (gmul3 t) ^^^ gmul13 (gmul2 t) = 0 := by decide

theorem mixinv20 : ∀ t < 256, gmul13 (gmul2 t) ^^^ gmul9 t ^^^ gmul14 t ^^^ gmul11 (gmul3 t) = 0 := by decide

theorem mixinv21 : ∀ t < 256, gmul13 (gmul3 t) ^^^ gmul9 (gmul2 t) ^^^ gmul14 t ^^^ gmul11 t = 0 := by decide

theorem mixinv22 : ∀ t < 256, gmul13 t ^^^ gmul9 (gmul3 t) ^^^ gmul14 (gmul2 t) ^^^ gmul11 t = t := by decide

theorem mixinv23 : ∀ t < 256, gmul13 t ^^^ gmul9 t ^^^ gmul14 (gmul3 t) ^^^ gmul11 (gmul2 t) = 0 := by decide

theorem mixinv30 : ∀ t < 256, gmul11 (gmul2 t) ^^^ gmul13 t ^^^ gmul9 t ^^^ gmul14 (gmul3 t) = 0 := by decide

theorem mixinv31 : ∀ t < 256, gmul11 (gmul3 t) ^^^ gmul13 (gmul2 t) ^^^ gmul9 t ^^^ gmul14 t = 0 := by decide

theorem mixinv32 : ∀ t < 256, gmul11 t ^^^ gmul13 (gmul3 t) ^^^ gmul9 (gmul2 t) ^^^ gmul14 t = 0 := by decide

theorem mixinv33 : ∀ t < 256, gmul11 t ^^^ gmul13 t ^^^ gmul9 (gmul3 t) ^^^ gmul14 (gmul2 t) = t := by decide

/-- Exhaustive check that the inverse S-box inverts the S-box on bytes. -/
theorem invSbox_sbox : ∀ t < 256, invSbox (sbox t) = t := by decide

/-- A 16-byte AES state / cipher block, column-major as in FIPS-197:
fields `b0..b3` are column 0, `b4..b7` column 1, and so on. -/
structure Blk where
  b0 : Nat
  b1 : Nat
  b2 : Nat
  b3 : Nat
  b4 : Nat
  b5 : Nat
  b6 : Nat
  b7 : Nat
  b8 : Nat
  b9 : Nat
  b10 : Nat
  b11 : Nat
  b12 : Nat
  b13 : Nat
  b14 : Nat
  b15 : Nat
  deriving DecidableEq

/-- All sixteen bytes of the state are in range. -/
def Blk.Valid (s : Blk) : Prop :=
  s.b0 < 256 ∧ s.b1 < 256 ∧ s.b2 < 256 ∧ s.b3 < 256 ∧
  s.b4 < 256 ∧ s.b5 < 256 ∧ s.b6 < 256 ∧ s.b7 < 256 ∧
  s.b8 < 256 ∧ s.b9 < 256 ∧ s.b10 < 256 ∧ s.b11 < 256 ∧
  s.b12 < 256 ∧ s.b13 < 256 ∧ s.b14 < 256 ∧ s.b15 < 256

instance (s : Blk) : Decidable s.Valid := by
  unfold Blk.Valid
  infer_instance

/-- Byte-wise xor of two states (AddRoundKey and CBC chaining). -/
def Blk.bxor (x y : Blk) : Blk :=
  ⟨x.b0 ^^^ y.b0, x.b1 ^^^ y.b1, x.b2 ^^^ y.b2, x.b3 ^^^ y.b3,
   x.b4 ^^^ y.b4, x.b5 ^^^ y.b5, x.b6 ^^^ y.b6, x.b7 ^^^ y.b7,
   x.b8 ^^^ y.b8, x.b9 ^^^ y.b9, x.b10 ^^^ y.b10, x.b11 ^^^ y.b11,
   x.b12 ^^^ y.b12, x.b13 ^^^ y.b13, x.b14 ^^^ y.b14, x.b15 ^^^ y.b15⟩

/-- SubBytes step. -/
def subBytes (s : Blk) : Blk :=
  ⟨sbox s.b0, sbox s.b1, sbox s.b2, sbox s.b3,
   sbox s.b4, sbox s.b5, sbox s.b6, sbox s.b7,
   sbox s.b8, sbox s.b9, sbox s.b10, sbox s.b11,
   sbox s.b12, sbox s.b13, sbox s.b14, sbox s.b15⟩

/-- InvSubBytes step. -/
def invSubBytes (s : Blk) : Blk :=
  ⟨invSbox s.b0, invSbox s.b1, invSbox s.b2, invSbox s.b3,
   invSbox s.b4, invSbox s.b5, invSbox s.b6, invSbox s.b7,
   invSbox s.b8, invSbox s.b9, invSbox s.b10, invSbox s.b11,
   invSbox s.b12, invSbox s.b13, invSbox s.b14, invSbox s.b15⟩

/-- ShiftRows step (row r of the column-major state rotates left by r). -/
def shiftRows (s : Blk) : Blk :=
  ⟨s.b0, s.b5, s.b10, s.b15,
   s.b4, s.b9, s.b14, s.b3,
   s.b8, s.b13, s.b2, s.b7,
   s.b12, s.b1, s.b6, s.b11⟩

/-- InvShiftRows step. -/
def invShiftRows (s : Blk) : Blk :=
  ⟨s.b0, s.b13, s.b10, s.b7,
   s.b4, s.b1, s.b14, s.b11,
   s.b8, s.b5, s.b2, s.b15,
   s.b12, s.b9, s.b6, s.b3⟩

/-- First output byte of MixColumns on one column. -/
def mixc0 (a0 a1 a2 a3 : Nat) : Nat := gmul2 a0 ^^^ gmul3 a1 ^^^ a2 ^^^ a3

/-- Second output byte of MixColumns on one column. -/
def mixc1 (a0 a1 a2 a3 : Nat) : Nat := a0 ^^^ gmul2 a1 ^^^ gmul3 a2 ^^^ a3

/-- Third output byte of MixColumns on one column. -/
def mixc2 (a0 a1 a2 a3 : Nat) : Nat := a0 ^^^ a1 ^^^ gmul2 a2 ^^^ gmul3 a3

/-- Fourth output byte of MixColumns on one column. -/
def mixc3 (a0 a1 a2 a3 : Nat) : Nat := gmul3 a0 ^^^ a1 ^^^ a2 ^^^ gmul2 a3

/-- First output byte of InvMixColumns on one column. -/
def invc0 (a0 a1 a2 a3 : Nat) : Nat := gmul14 a0 ^^^ gmul11 a1 ^^^ gmul13 a2 ^^^ gmul9 a3

/-- Second output byte of InvMixColumns on one column. -/
def invc1 (a0 a1 a2 a3 : Nat) : Nat := gmul9 a0 ^^^ gmul14 a1 ^^^ gmul11 a2 ^^^ gmul13 a3

/-- Third output byte of InvMixColumns on one column. -/
def invc2 (a0 a1 a2 a3 : Nat) : Nat := gmul13 a0 ^^^ gmul9 a1 ^^^ gmul14 a2 ^^^ gmul11 a3

/-- Fourth output byte of InvMixColumns on one column. -/
def invc3 (a0 a1 a2 a3 : Nat) : Nat := gmul11 a0 ^^^ gmul13 a1 ^^^ gmul9 a2 ^^^ gmul14 a3

/-- MixColumns step. -/
def mixColumns (s : Blk) : Blk :=
  ⟨mixc0 s.b0 s.b1 s.b2 s.b3, mixc1 s.b0 s.b1 s.b2 s.b3,
   mixc2 s.b0 s.b1 s.b2 s.b3, mixc3 s.b0 s.b1 s.b2 s.b3,
   mixc0 s.b4 s.b5 s.b6 s.b7, mixc1 s.b4 s.b5 s.b6 s.b7,
   mixc2 s.b4 s.b5 s.b6 s.b7, mixc3 s.b4 s.b5 s.b6 s.b7,
   mixc0 s.b8 s.b9 s.b10 s.b11, mixc1 s.b8 s.b9 s.b10 s.b11,
   mixc2 s.b8 s.b9 s.b10 s.b11, mixc3 s.b8 s.b9 s.b10 s.b11,
   mixc0 s.b12 s.b13 s.b14 s.b15, mixc1 s.b12 s.b13 s.b14 s.b15,
   mixc2 s.b12 s.b13 s.b14 s.b15, mixc3 s.b12 s.b13 s.b14 s.b15⟩

/-- InvMixColumns step. -/
def invMixColumns (s : Blk) : Blk :=
  ⟨invc0 s.b0 s.b1 s.b2 s.b3, invc1 s.b0 s.b1 s.b2 s.b3,
   invc2 s.b0 s.b1 s.b2 s.b3, invc3 s.b0 s.b1 s.b2 s.b3,
   invc0 s.b4 s.b5 s.b6 s.b7, invc1 s.b4 s.b5 s.b6 s.b7,
   invc2 s.b4 s.b5 s.b6 s.b7, invc3 s.b4 s.b5 s.b6 s.b7,
   invc0 s.b8 s.b9 s.b10 s.b11, invc1 s.b8 s.b9 s.b10 s.b11,
   invc2 s.b8 s.b9 s.b10 s.b11, invc3 s.b8 s.b9 s.b10 s.b11,
   invc0 s.b12 s.b13 s.b14 s.b15, invc1 s.b12 s.b13 s.b14 s.b15,
   invc2 s.b12 s.b13 s.b14 s.b15, invc3 s.b12 s.b13 s.b14 s.b15⟩

theorem lin4 {g : Nat → Nat}
    (hg : ∀ {x y : Nat}, x < 256 → y < 256 → g (x ^^^ y) = g x ^^^ g y)
    {w x y z : Nat} (hw : w < 256) (hx : x < 256) (hy : y < 256) (hz : z < 256) :
    g (w ^^^ x ^^^ y ^^^ z) = g w ^^^ g x ^^^ g y ^^^ g z := by
  rw [hg (byte_xor_lt (byte_xor_lt hw hx) hy) hz, hg (byte_xor_lt hw hx) hy, hg hw hx]

theorem invc0_mix {a0 a1 a2 a3 : Nat}
    (h0 : a0 < 256) (h1 : a1 < 256) (h2 : a2 < 256) (h3 : a3 < 256) :
    invc0 (mixc0 a0 a1 a2 a3) (mixc1 a0 a1 a2 a3) (mixc2 a0 a1 a2 a3) (mixc3 a0 a1 a2 a3) = a0 := by
  unfold invc0 mixc0 mixc1 mixc2 mixc3
  rw [lin4 gmul14_xor (gmul2_lt a0) (gmul3_lt h1) h2 h3,
    lin4 gmul11_xor h0 (gmul2_lt a1) (gmul3_lt h2) h3,
    lin4 gmul13_xor h0 h1 (gmul2_lt a2) (gmul3_lt h3),
    lin4 gmul9_xor (gmul3_lt h0) h1 h2 (gmul2_lt a3)]
  have hre :
      (gmul14 (gmul2 a0) ^^^ gmul14 (gmul3 a1) ^^^ gmul14 a2 ^^^ gmul14 a3) ^^^
      (gmul11 a0 ^^^ gmul11 (gmul2 a1) ^^^ gmul11 (gmul3 a2) ^^^ gmul11 a3) ^^^
      (gmul13 a0 ^^^ gmul13 a1 ^^^ gmul13 (gmul2 a2) ^^^ gmul13 (gmul3 a3)) ^^^
      (gmul9 (gmul3 a0) ^^^ gmul9 a1 ^^^ gmul9 a2 ^^^ gmul9 (gmul2 a3)) =
      (gmul14 (gmul2 a0) ^^^ gmul11 a0 ^^^ gmul13 a0 ^^^ gmul9 (gmul3 a0)) ^^^
      (gmul14 (gmul3 a1) ^^^ gmul11 (gmul2 a1) ^^^ gmul13 a1 ^^^ gmul9 a1) ^^^
      (gmul14 a2 ^^^ gmul11 (gmul3 a2) ^^^ gmul13 (gmul2 a2) ^^^ gmul9 a2) ^^^
      (gmul14 a3 ^^^ gmul11 a3 ^^^ gmul13 (gmul3 a3) ^^^ gmul9 (gmul2 a3)) := by
    ac_rfl
  rw [hre, mixinv00 a0 h0, mixinv01 a1 h1, mixinv02 a2 h2, mixinv03 a3 h3]
  simp

theorem invc1_mix {a0 a1 a2 a3 : Nat}
    (h0 : a0 < 256) (h1 : a1 < 256) (h2 : a2 < 256) (h3 : a3 < 256) :
    invc1 (mixc0 a0 a1 a2 a3) (mixc1 a0 a1 a2 a3) (mixc2 a0 a1 a2 a3) (mixc3 a0 a1 a2 a3) = a1 := by
  unfold invc1 mixc0 mixc1 mixc2 mixc3
  rw [lin4 gmul9_xor (gmul2_lt a0) (gmul3_lt h1) h2 h3,
    lin4 gmul14_xor h0 (gmul2_lt a1) (gmul3_lt h2) h3,
    lin4 gmul11_xor h0 h1 (gmul2_lt a2) (gmul3_lt h3),
    lin4 gmul13_xor (gmul3_lt h0) h1 h2 (gmul2_lt a3)]
  have hre :
      (gmul9 (gmul2 a0) ^^^ gmul9 (gmul3 a1) ^^^ gmul9 a2 ^^^ gmul9 a3) ^^^
      (gmul14 a0 ^^^ gmul14 (gmul2 a1) ^^^ gmul14 (gmul3 a2) ^^^ gmul14 a3) ^^^
      (gmul11 a0 ^^^ gmul11 a1 ^^^ gmul11 (gmul2 a2) ^^^ gmul11 (gmul3 a3)) ^^^
      (gmul13 (gmul3 a0) ^^^ gmul13 a1 ^^^ gmul13 a2 ^^^ gmul13 (gmul2 a3)) =
      (gmul9 (gmul2 a0) ^^^ gmul14 a0 ^^^ gmul11 a0 ^^^ gmul13 (gmul3 a0)) ^^^
      (gmul9 (gmul3 a1) ^^^ gmul14 (gmul2 a1) ^^^ gmul11 a1 ^^^ gmul13 a1) ^^^
      (gmul9 a2 ^^^ gmul14 (gmul3 a2) ^^^ gmul11 (gmul2 a2) ^^^ gmul13 a2) ^^^
      (gmul9 a3 ^^^ gmul14 a3 ^^^ gmul11 (gmul3 a3) ^^^ gmul13 (gmul2 a3)) := by
    ac_rfl
  rw [hre, mixinv10 a0 h0, mixinv11 a1 h1, mixinv12 a2 h2, mixinv13 a3 h3]
  simp

theorem invc2_mix {a0 a1 a2 a3 : Nat}
    (h0 : a0 < 256) (h1 : a1 < 256) (h2 : a2 < 256) (h3 : a3 < 256) :
    invc2 (mixc0 a0 a1 a2 a3) (mixc1 a0 a1 a2 a3) (mixc2 a0 a1 a2 a3) (mixc3 a0 a1 a2 a3) = a2 := by
  unfold invc2 mixc0 mixc1 mixc2 mixc3
  rw [lin4 gmul13_xor (gmul2_lt a0) (gmul3_lt h1) h2 h3,
    lin4 gmul9_xor h0 (gmul2_lt a1) (gmul3_lt h2) h3,
    lin4 gmul14_xor h0 h1 (gmul2_lt a2) (gmul3_lt h3),
    lin4 gmul11_xor (gmul3_lt h0) h1 h2 (gmul2_lt a3)]
  have hre :
      (gmul13 (gmul2 a0) ^^^ gmul13 (gmul3 a1) ^^^ gmul13 a2 ^^^ gmul13 a3) ^^^
      (gmul9 a0 ^^^ gmul9 (gmul2 a1) ^^^ gmul9 (gmul3 a2) ^^^ gmul9 a3) ^^^
      (gmul14 a0 ^^^ gmul14 a1 ^^^ gmul14 (gmul2 a2) ^^^ gmul14 (gmul3 a3)) ^^^
      (gmul11 (gmul3 a0) ^^^ gmul11 a1 ^^^ gmul11 a2 ^^^ gmul11 (gmul2 a3)) =
      (gmul13 (gmul2 a0) ^^^ gmul9 a0 ^^^ gmul14 a0 ^^^ gmul11 (gmul3 a0)) ^^^
      (gmul13 (gmul3 a1) ^^^ gmul9 (gmul2 a1) ^^^ gmul14 a1 ^^^ gmul11 a1) ^^^
      (gmul13 a2 ^^^ gmul9 (gmul3 a2) ^^^ gmul14 (gmul2 a2) ^^^ gmul11 a2) ^^^
      (gmul13 a3 ^^^ gmul9 a3 ^^^ gmul14 (gmul3 a3) ^^^ gmul11 (gmul2 a3)) := by
    ac_rfl
  rw [hre, mixinv20 a0 h0, mixinv21 a1 h1, mixinv22 a2 h2, mixinv23 a3 h3]
  simp

theorem invc3_mix {a0 a1 a2 a3 : Nat}
    (h0 : a0 < 256) (h1 : a1 < 256) (h2 : a2 < 256) (h3 : a3 < 256) :
    invc3 (mixc0 a0 a1 a2 a3) (mixc1 a0 a1 a2 a3) (mixc2 a0 a1 a2 a3) (mixc3 a0 a1 a2 a3) = a3 := by
  unfold invc3 mixc0 mixc1 mixc2 mixc3
  rw [lin4 gmul11_xor (gmul2_lt a0) (gmul3_lt h1) h2 h3,
    lin4 gmul13_xor h0 (gmul2_lt a1) (gmul3_lt h2) h3,
    lin4 gmul9_xor h0 h1 (gmul2_lt a2) (gmul3_lt h3),
    lin4 gmul14_xor (gmul3_lt h0) h1 h2 (gmul2_lt a3)]
  have hre :
      (gmul11 (gmul2 a0) ^^^ gmul11 (gmul3 a1) ^^^ gmul11 a2 ^^^ gmul11 a3) ^^^
      (gmul13 a0 ^^^ gmul13 (gmul2 a1) ^^^ gmul13 (gmul3 a2) ^^^ gmul13 a3) ^^^
      (gmul9 a0 ^^^ gmul9 a1 ^^^ gmul9 (gmul2 a2) ^^^ gmul9 (gmul3 a3)) ^^^
      (gmul14 (gmul3 a0) ^^^ gmul14 a1 ^^^ gmul14 a2 ^^^ gmul14 (gmul2 a3)) =
      (gmul11 (gmul2 a0) ^^^ gmul13 a0 ^^^ gmul9 a0 ^^^ gmul14 (gmul3 a0)) ^^^
      (gmul11 (gmul3 a1) ^^^ gmul13 (gmul2 a1) ^^^ gmul9 a1 ^^^ gmul14 a1) ^^^
      (gmul11 a2 ^^^ gmul13 (gmul3 a2) ^^^ gmul9 (gmul2 a2) ^^^ gmul14 a2) ^^^
      (gmul11 a3 ^^^ gmul13 a3 ^^^ gmul9 (gmul3 a3) ^^^ gmul14 (gmul2 a3)) := by
    ac_rfl
  rw [hre, mixinv30 a0 h0, mixinv31 a1 h1, mixinv32 a2 h2, mixinv33 a3 h3]
  simp

theorem invMixColumns_mixColumns {s : Blk} (hs : s.Valid) :
    invMixColumns (mixColumns s) = s := by
  obtain ⟨h0, h1, h2, h3, h4, h5, h6, h7, h8, h9, h10, h11, h12, h13, h14, h15⟩ := hs
  cases s
  simp only [mixColumns, invMixColumns, Blk.mk.injEq]
  exact ⟨invc0_mix h0 h1 h2 h3, invc1_mix h0 h1 h2 h3,
    invc2_mix h0 h1 h2 h3, invc3_mix h0 h1 h2 h3,
    invc0_mix h4 h5 h6 h7, invc1_mix h4 h5 h6 h7,
    invc2_mix h4 h5 h6 h7, invc3_mix h4 h5 h6 h7,
    invc0_mix h8 h9 h10 h11, invc1_mix h8 h9 h10 h11,
    invc2_mix h8 h9 h10 h11, invc3_mix h8 h9 h10 h11,
    invc0_mix h12 h13 h14 h15, invc1_mix h12 h13 h14 h15,
    invc2_mix h12 h13 h14 h15, invc3_mix h12 h13 h14 h15⟩

theorem invShiftRows_shiftRows (s : Blk) : invShiftRows (shiftRows s) = s := rfl

theorem invSubBytes_subBytes {s : Blk} (hs : s.Valid) : invSubBytes (subBytes s) = s := by
  obtain ⟨h0, h1, h2, h3, h4, h5, h6, h7, h8, h9, h10, h11, h12, h13, h14, h15⟩ := hs
  cases s
  simp only [subBytes, invSubBytes, Blk.mk.injEq]
  exact ⟨invSbox_sbox _ h0, invSbox_sbox _ h1, invSbox_sbox _ h2, invSbox_sbox _ h3,
    invSbox_sbox _ h4, invSbox_sbox _ h5, invSbox_sbox _ h6, invSbox_sbox _ h7,
    invSbox_sbox _ h8, invSbox_sbox _ h9, invSbox_sbox _ h10, invSbox_sbox _ h11,
    invSbox_sbox _ h12, invSbox_sbox _ h13, invSbox_sbox _ h14, invSbox_sbox _ h15⟩

theorem Blk.bxor_cancel (x y : Blk) : (x.bxor y).bxor y = x := by
  cases x
  cases y
  simp [Blk.bxor, Nat.xor_cancel_right]

theorem Blk.bxor_valid {x y : Blk} (hx : x.Valid) (hy : y.Valid) : (x.bxor y).Valid := by
  obtain ⟨x0, x1, x2, x3, x4, x5, x6, x7, x8, x9, x10, x11, x12, x13, x14, x15⟩ := hx
  obtain ⟨y0, y1, y2, y3, y4, y5, y6, y7, y8, y9, y10, y11, y12, y13, y14, y15⟩ := hy
  exact ⟨byte_xor_lt x0 y0, byte_xor_lt x1 y1, byte_xor_lt x2 y2, byte_xor_lt x3 y3,
    byte_xor_lt x4 y4, byte_xor_lt x5 y5, byte_xor_lt x6 y6, byte_xor_lt x7 y7,
    byte_xor_lt x8 y8, byte_xor_lt x9 y9, byte_xor_lt x10 y10, byte_xor_lt x11 y11,
    byte_xor_lt x12 y12, byte_xor_lt x13 y13, byte_xor_lt x14 y14, byte_xor_lt x15 y15⟩

theorem subBytes_valid (s : Blk) : (subBytes s).Valid :=
  ⟨sbox_lt _, sbox_lt _, sbox_lt _, sbox_lt _, sbox_lt _, sbox_lt _, sbox_lt _, sbox_lt _,
   sbox_lt _, sbox_lt _, sbox_lt _, sbox_lt _, sbox_lt _, sbox_lt _, sbox_lt _, sbox_lt _⟩

theorem shiftRows_valid {s : Blk} (hs : s.Valid) : (shiftRows s).Valid := by
  obtain ⟨h0, h1, h2, h3, h4, h5, h6, h7, h8, h9, h10, h11, h12, h13, h14, h15⟩ := hs
  exact ⟨h0, h5, h10, h15, h4, h9, h14, h3, h8, h13, h2, h7, h12, h1, h6, h11⟩

theorem mixc0_lt {a0 a1 a2 a3 : Nat}
    (h0 : a0 < 256) (h1 : a1 < 256) (h2 : a2 < 256) (h3 : a3 < 256) :
    mixc0 a0 a1 a2 a3 < 256 :=
  byte_xor_lt (byte_xor_lt (byte_xor_lt (gmul2_lt a0) (gmul3_lt h1)) h2) h3

theorem mixc1_lt {a0 a1 a2 a3 : Nat}
    (h0 : a0 < 256) (h1 : a1 < 256) (h2 : a2 < 256) (h3 : a3 < 256) :
    mixc1 a0 a1 a2 a3 < 256 :=
  byte_xor_lt (byte_xor_lt (byte_xor_lt h0 (gmul2_lt a1)) (gmul3_lt h2)) h3

theorem mixc2_lt {a0 a1 a2 a3 : Nat}
    (h0 : a0 < 256) (h1 : a1 < 256) (h2 : a2 < 256) (h3 : a3 < 256) :
    mixc2 a0 a1 a2 a3 < 256 :=
  byte_xor_lt (byte_xor_lt (byte_xor_lt h0 h1) (gmul2_lt a2)) (gmul3_lt h3)

theorem mixc3_lt {a0 a1 a2 a3 : Nat}
    (h0 : a0 < 256) (h1 : a1 < 256) (h2 : a2 < 256) (h3 : a3 < 256) :
    mixc3 a0 a1 a2 a3 < 256 :=
  byte_xor_lt (byte_xor_lt (byte_xor_lt (gmul3_lt h0) h1) h2) (gmul2_lt a3)

theorem mixColumns_valid {s : Blk} (hs : s.Valid) : (mixColumns s).Valid := by
  obtain ⟨h0, h1, h2, h3, h4, h5, h6, h7, h8, h9, h10, h11, h12, h13, h14, h15⟩ := hs
  exact ⟨mixc0_lt h0 h1 h2 h3, mixc1_lt h0 h1 h2 h3, mixc2_lt h0 h1 h2 h3, mixc3_lt h0 h1 h2 h3,
    mixc0_lt h4 h5 h6 h7, mixc1_lt h4 h5 h6 h7, mixc2_lt h4 h5 h6 h7, mixc3_lt h4 h5 h6 h7,
    mixc0_lt h8 h9 h10 h11, mixc1_lt h8 h9 h10 h11, mixc2_lt h8 h9 h10 h11, mixc3_lt h8 h9 h10 h11,
    mixc0_lt h12 h13 h14 h15, mixc1_lt h12 h13 h14 h15, mixc2_lt h12 h13 h14 h15, mixc3_lt h12 h13 h14 h15⟩

/-- A four-byte word of the AES key schedule. -/
structure W where
  w0 : Nat
  w1 : Nat
  w2 : Nat
  w3 : Nat
  deriving DecidableEq

/-- All four bytes of the word are in range. -/
def W.Valid (w : W) : Prop := w.w0 < 256 ∧ w.w1 < 256 ∧ w.w2 < 256 ∧ w.w3 < 256

/-- SubWord of the key schedule. -/
def subWord (w : W) : W := ⟨sbox w.w0, sbox w.w1, sbox w.w2, sbox w.w3⟩

/-- RotWord of the key schedule. -/
def rotWord (w : W) : W := ⟨w.w1, w.w2, w.w3, w.w0⟩

/-- Byte-wise xor of two key-schedule words. -/
def wxor (x y : W) : W := ⟨x.w0 ^^^ y.w0, x.w1 ^^^ y.w1, x.w2 ^^^ y.w2, x.w3 ^^^ y.w3⟩

/-- The AES round constants, indexed by round number 1..10. -/
def rconv : Nat → Nat
  | 1 => 1
  | 2 => 2
  | 3 => 4
  | 4 => 8
  | 5 => 16
  | 6 => 32
  | 7 => 64
  | 8 => 128
  | 9 => 27
  | 10 => 54
  | _ => 0

/-- Key expansion loop: produce `n` further words, word index `i` next,
given the previous four words. -/
def kexGo : Nat → Nat → W → W → W → W → List W
  | 0, _, _, _, _, _ => []
  | n + 1, i, wm4, _wm3, wm2, wm1 =>
    let t := if i % 4 == 0 then wxor (subWord (rotWord wm1)) ⟨rconv (i / 4), 0, 0, 0⟩ else wm1
    let wi := wxor wm4 t
    wi :: kexGo n (i + 1) _wm3 wm2 wm1 wi

/-- The 44 words of the expanded AES-128 key. -/
def keyWords (k : Blk) : List W :=
  let q0 : W := ⟨k.b0, k.b1, k.b2, k.b3⟩
  let q1 : W := ⟨k.b4, k.b5, k.b6, k.b7⟩
  let q2 : W := ⟨k.b8, k.b9, k.b10, k.b11⟩
  let q3 : W := ⟨k.b12, k.b13, k.b14, k.b15⟩
  q0 :: q1 :: q2 :: q3 :: kexGo 40 4 q0 q1 q2 q3

/-- Group the expanded words four at a time into round-key blocks. -/
def groupWords : List W → List Blk
  | u0 :: u1 :: u2 :: u3 :: rest =>
    ⟨u0.w0, u0.w1, u0.w2, u0.w3, u1.w0, u1.w1, u1.w2, u1.w3,
     u2.w0, u2.w1, u2.w2, u2.w3, u3.w0, u3.w1, u3.w2, u3.w3⟩ :: groupWords rest
  | _ => []

/-- The eleven AES-128 round keys derived from a cipher key. -/
def roundKeys (k : Blk) : List Blk := groupWords (keyWords k)

/-- All AES rounds after the initial AddRoundKey, driven by the remaining
round-key list: a last round omits MixColumns. -/
def encRounds : List Blk → Blk → Blk
  | [], st => st
  | [rk], st => (shiftRows (subBytes st)).bxor rk
  | rk :: rk2 :: rest, st =>
    encRounds (rk2 :: rest) ((mixColumns (shiftRows (subBytes st))).bxor rk)

/-- Exact inverse of `encRounds` over the same round-key list. -/
def decRounds : List Blk → Blk → Blk
  | [], st => st
  | [rk], st => invSubBytes (invShiftRows (st.bxor rk))
  | rk :: rk2 :: rest, st =>
    invSubBytes (invShiftRows (invMixColumns ((decRounds (rk2 :: rest) st).bxor rk)))

/-- AES-128 block encryption. -/
def encBlock (k : Blk) (p : Blk) : Blk :=
  match roundKeys k with
  | [] => p
  | rk0 :: rest => encRounds rest (p.bxor rk0)

/-- AES-128 block decryption. -/
def decBlock (k : Blk) (c : Blk) : Blk :=
  match roundKeys k with
  | [] => c
  | rk0 :: rest => (decRounds rest c).bxor rk0

theorem subWord_valid (w : W) : (subWord w).Valid :=
  ⟨sbox_lt _, sbox_lt _, sbox_lt _, sbox_lt _⟩

theorem wxor_valid {x y : W} (hx : x.Valid) (hy : y.Valid) : (wxor x y).Valid := by
  obtain ⟨x0, x1, x2, x3⟩ := hx
  obtain ⟨y0, y1, y2, y3⟩ := hy
  exact ⟨byte_xor_lt x0 y0, byte_xor_lt x1 y1, byte_xor_lt x2 y2, byte_xor_lt x3 y3⟩

theorem rconv_lt (i : Nat) : rconv i < 256 := by
  unfold rconv
  split <;> norm_num

theorem kexGo_valid :
    ∀ (n i : Nat) (wm4 wm3 wm2 wm1 : W), wm4.Valid → wm3.Valid → wm2.Valid → wm1.Valid →
      ∀ w ∈ kexGo n i wm4 wm3 wm2 wm1, w.Valid := by
  intro n
  induction n with
  | zero => intro i wm4 wm3 wm2 wm1 _ _ _ _ w hw; simp [kexGo] at hw
  | succ m ih =>
    intro i wm4 wm3 wm2 wm1 h4 h3 h2 h1 w hw
    rw [kexGo] at hw
    have ht : (if i % 4 == 0 then wxor (subWord (rotWord wm1)) ⟨rconv (i / 4), 0, 0, 0⟩ else wm1).Valid := by
      split
      · exact wxor_valid (subWord_valid _) ⟨rconv_lt _, by norm_num, by norm_num, by norm_num⟩
      · exact h1
    have hwi : (wxor wm4 (if i % 4 == 0 then wxor (subWord (rotWord wm1)) ⟨rconv (i / 4), 0, 0, 0⟩ else wm1)).Valid :=
      wxor_valid h4 ht
    simp only [List.mem_cons] at hw
    rcases hw with rfl | hw
    · exact hwi
    · exact ih (i + 1) wm3 wm2 wm1 _ h3 h2 h1 hwi w hw

theorem groupWords_valid_aux :
    ∀ (n : Nat) (ws : List W), ws.length = n → (∀ w ∈ ws, w.Valid) →
      ∀ b ∈ groupWords ws, b.Valid := by
  intro n
  induction n using Nat.strong_induction_on with
  | _ n ih =>
    intro ws hn
    rcases ws with _ | ⟨u0, ws⟩
    · intro _ b hb; simp [groupWords] at hb
    rcases ws with _ | ⟨u1, ws⟩
    · intro _ b hb; simp [groupWords] at hb
    rcases ws with _ | ⟨u2, ws⟩
    · intro _ b hb; simp [groupWords] at hb
    rcases ws with _ | ⟨u3, rest⟩
    · intro _ b hb; simp [groupWords] at hb
    intro hv b hb
    rw [groupWords] at hb
    simp only [List.mem_cons] at hb
    have h0 : u0.Valid := hv u0 (by simp)
    have h1 : u1.Valid := hv u1 (by simp)
    have h2 : u2.Valid := hv u2 (by simp)
    have h3 : u3.Valid := hv u3 (by simp)
    rcases hb with rfl | hb
    · obtain ⟨a0, a1, a2, a3⟩ := h0
      obtain ⟨b0, b1, b2, b3⟩ := h1
      obtain ⟨c0, c1, c2, c3⟩ := h2
      obtain ⟨d0, d1, d2, d3⟩ := h3
      exact ⟨a0, a1, a2, a3, b0, b1, b2, b3, c0, c1, c2, c3, d0, d1, d2, d3⟩
    · exact ih rest.length (by simp at hn; omega) rest rfl
        (fun w hw => hv w (by simp [hw])) b hb

theorem groupWords_valid {ws : List W} (hv : ∀ w ∈ ws, w.Valid) :
    ∀ b ∈ groupWords ws, b.Valid :=
  groupWords_valid_aux ws.length ws rfl hv

theorem roundKeys_valid {k : Blk} (hk : k.Valid) : ∀ rk ∈ roundKeys k, rk.Valid := by
  obtain ⟨h0, h1, h2, h3, h4, h5, h6, h7, h8, h9, h10, h11, h12, h13, h14, h15⟩ := hk
  apply groupWords_valid
  intro w hw
  unfold keyWords at hw
  simp only [List.mem_cons] at hw
  rcases hw with rfl | rfl | rfl | rfl | hw
  · exact ⟨h0, h1, h2, h3⟩
  · exact ⟨h4, h5, h6, h7⟩
  · exact ⟨h8, h9, h10, h11⟩
  · exact ⟨h12, h13, h14, h15⟩
  · exact kexGo_valid 40 4 _ _ _ _ ⟨h0, h1, h2, h3⟩ ⟨h4, h5, h6, h7⟩
      ⟨h8, h9, h10, h11⟩ ⟨h12, h13, h14, h15⟩ w hw

theorem encRounds_valid :
    ∀ (rks : List Blk) (st : Blk), st.Valid → (∀ rk ∈ rks, rk.Valid) →
      (encRounds rks st).Valid := by
  intro rks
  induction rks with
  | nil => intro st hst _; exact hst
  | cons rk rest ih =>
    intro st hst hrk
    rcases rest with _ | ⟨rk2, rest2⟩
    · exact Blk.bxor_valid (shiftRows_valid (subBytes_valid st)) (hrk rk (by simp))
    · rw [encRounds]
      exact ih _ (Blk.bxor_valid (mixColumns_valid (shiftRows_valid (subBytes_valid st)))
        (hrk rk (by simp))) (fun r hr => hrk r (by simp [hr]))

theorem decRounds_encRounds :
    ∀ (rks : List Blk) (st : Blk), st.Valid → (∀ rk ∈ rks, rk.Valid) →
      decRounds rks (encRounds rks st) = st := by
  intro rks
  induction rks with
  | nil => intro st _ _; rfl
  | cons rk rest ih =>
    intro st hst hrk
    rcases rest with _ | ⟨rk2, rest2⟩
    · show decRounds [rk] ((shiftRows (subBytes st)).bxor rk) = st
      rw [decRounds, Blk.bxor_cancel, invShiftRows_shiftRows, invSubBytes_subBytes hst]
    · rw [encRounds, decRounds,
        ih _ (Blk.bxor_valid (mixColumns_valid (shiftRows_valid (subBytes_valid st)))
          (hrk rk (by simp))) (fun r hr => hrk r (by simp [hr])),
        Blk.bxor_cancel, invMixColumns_mixColumns (shiftRows_valid (subBytes_valid st)),
        invShiftRows_shiftRows, invSubBytes_subBytes hst]

theorem decBlock_encBlock {k p : Blk} (hk : k.Valid) (hp : p.Valid) :
    decBlock k (encBlock k p) = p := by
  have hv := roundKeys_valid hk
  unfold decBlock encBlock
  cases hrk : roundKeys k with
  | nil => rfl
  | cons rk0 rest =>
    rw [hrk] at hv
    show (decRounds rest (encRounds rest (p.bxor rk0))).bxor rk0 = p
    rw [decRounds_encRounds rest _ (Blk.bxor_valid hp (hv rk0 (by simp)))
      (fun r hr => hv r (by simp [hr])), Blk.bxor_cancel]

theorem encBlock_valid {k p : Blk} (hk : k.Valid) (hp : p.Valid) : (encBlock k p).Valid := by
  have hv := roundKeys_valid hk
  unfold encBlock
  cases hrk : roundKeys k with
  | nil => exact hp
  | cons rk0 rest =>
    rw [hrk] at hv
    show (encRounds rest (p.bxor rk0)).Valid
    exact encRounds_valid rest _ (Blk.bxor_valid hp (hv rk0 (by simp)))
      (fun r hr => hv r (by simp [hr]))

/-- Split a byte list into 16-byte cipher blocks; a trailing fragment of
fewer than 16 bytes is not a block and is dropped. -/
def toBlocks : List Nat → List Blk
  | a0 :: a1 :: a2 :: a3 :: a4 :: a5 :: a6 :: a7 ::
    a8 :: a9 :: a10 :: a11 :: a12 :: a13 :: a14 :: a15 :: rest =>
    ⟨a0, a1, a2, a3, a4, a5, a6, a7, a8, a9, a10, a11, a12, a13, a14, a15⟩ :: toBlocks rest
  | _ => []

/-- Flatten cipher blocks back into a byte list. -/
def ofBlocks : List Blk → List Nat
  | [] => []
  | b :: rest =>
    b.b0 :: b.b1 :: b.b2 :: b.b3 :: b.b4 :: b.b5 :: b.b6 :: b.b7 ::
    b.b8 :: b.b9 :: b.b10 :: b.b11 :: b.b12 :: b.b13 :: b.b14 :: b.b15 :: ofBlocks rest

theorem toBlocks_ofBlocks : ∀ bs : List Blk, toBlocks (ofBlocks bs) = bs := by
  intro bs
  induction bs with
  | nil => rfl
  | cons b rest ih => rw [ofBlocks, toBlocks, ih]

theorem ofBlocks_length : ∀ bs : List Blk, (ofBlocks bs).length = 16 * bs.length := by
  intro bs
  induction bs with
  | nil => rfl
  | cons b rest ih => simp [ofBlocks, ih]; omega

theorem list16_decomp :
    ∀ l : List Nat, l.length % 16 = 0 →
      l = [] ∨ ∃ (a0 a1 a2 a3 a4 a5 a6 a7 a8 a9 a10 a11 a12 a13 a14 a15 : Nat)
        (rest : List Nat),
        l = a0 :: a1 :: a2 :: a3 :: a4 :: a5 :: a6 :: a7 ::
            a8 :: a9 :: a10 :: a11 :: a12 :: a13 :: a14 :: a15 :: rest ∧
        rest.length % 16 = 0 := by
  intro l hmod
  rcases l with _ | ⟨a0, l⟩
  · exact Or.inl rfl
  rcases l with _ | ⟨a1, l⟩
  · simp at hmod
  rcases l with _ | ⟨a2, l⟩
  · simp at hmod
  rcases l with _ | ⟨a3, l⟩
  · simp at hmod
  rcases l with _ | ⟨a4, l⟩
  · simp at hmod
  rcases l with _ | ⟨a5, l⟩
  · simp at hmod
  rcases l with _ | ⟨a6, l⟩
  · simp at hmod
  rcases l with _ | ⟨a7, l⟩
  · simp at hmod
  rcases l with _ | ⟨a8, l⟩
  · simp at hmod
  rcases l with _ | ⟨a9, l⟩
  · simp at hmod
  rcases l with _ | ⟨a10, l⟩
  · simp at hmod
  rcases l with _ | ⟨a11, l⟩
  · simp at hmod
  rcases l with _ | ⟨a12, l⟩
  · simp at hmod
  rcases l with _ | ⟨a13, l⟩
  · simp at hmod
  rcases l with _ | ⟨a14, l⟩
  · simp at hmod
  rcases l with _ | ⟨a15, rest⟩
  · simp at hmod
  refine Or.inr ⟨a0, a1, a2, a3, a4, a5, a6, a7, a8, a9, a10, a11, a12, a13, a14, a15, rest, rfl, ?_⟩
  simp at hmod
  omega

theorem ofBlocks_toBlocks_aux :
    ∀ (n : Nat) (l : List Nat), l.length = n → l.length % 16 = 0 →
      ofBlocks (toBlocks l) = l := by
  intro n
  induction n using Nat.strong_induction_on with
  | _ n ih =>
    intro l hn hmod
    rcases list16_decomp l hmod with rfl | ⟨a0, a1, a2, a3, a4, a5, a6, a7, a8, a9,
      a10, a11, a12, a13, a14, a15, rest, rfl, hrest⟩
    · rfl
    · rw [toBlocks, ofBlocks, ih rest.length (by simp at hn; omega) rest rfl hrest]

theorem ofBlocks_toBlocks {l : List Nat} (hmod : l.length % 16 = 0) :
    ofBlocks (toBlocks l) = l :=
  ofBlocks_toBlocks_aux l.length l rfl hmod

theorem toBlocks_valid_aux :
    ∀ (n : Nat) (l : List Nat), l.length = n → l.length % 16 = 0 →
      (∀ x ∈ l, x < 256) → ∀ b ∈ toBlocks l, b.Valid := by
  intro n
  induction n using Nat.strong_induction_on with
  | _ n ih =>
    intro l hn hmod hv
    rcases list16_decomp l hmod with rfl | ⟨a0, a1, a2, a3, a4, a5, a6, a7, a8, a9,
      a10, a11, a12, a13, a14, a15, rest, rfl, hrest⟩
    · intro b hb; simp [toBlocks] at hb
    · intro b hb
      rw [toBlocks] at hb
      simp only [List.mem_cons] at hb
      rcases hb with rfl | hb
      · exact ⟨hv a0 (by simp), hv a1 (by simp), hv a2 (by simp), hv a3 (by simp),
          hv a4 (by simp), hv a5 (by simp), hv a6 (by simp), hv a7 (by simp),
          hv a8 (by simp), hv a9 (by simp), hv a10 (by simp), hv a11 (by simp),
          hv a12 (by simp), hv a13 (by simp), hv a14 (by simp), hv a15 (by simp)⟩
      · exact ih rest.length (by simp at hn; omega) rest rfl hrest
          (fun x hx => hv x (by simp [hx])) b hb

theorem toBlocks_valid {l : List Nat} (hmod : l.length % 16 = 0)
    (hv : ∀ x ∈ l, x < 256) : ∀ b ∈ toBlocks l, b.Valid :=
  toBlocks_valid_aux l.length l rfl hmod hv

theorem toBlocks_append16_aux :
    ∀ (n : Nat) (xs : List Nat), xs.length = n → xs.length % 16 = 0 →
      ∀ ys : List Nat, toBlocks (xs ++ ys) = toBlocks xs ++ toBlocks ys := by
  intro n
  induction n using Nat.strong_induction_on with
  | _ n ih =>
    intro xs hn hmod ys
    rcases list16_decomp xs hmod with rfl | ⟨a0, a1, a2, a3, a4, a5, a6, a7, a8, a9,
      a10, a11, a12, a13, a14, a15, rest, rfl, hrest⟩
    · rfl
    · simp only [List.cons_append]
      rw [toBlocks, toBlocks, ih rest.length (by simp at hn; omega) rest rfl hrest ys,
        List.cons_append]

theorem toBlocks_append16 {xs : List Nat} (hmod : xs.length % 16 = 0) (ys : List Nat) :
    toBlocks (xs ++ ys) = toBlocks xs ++ toBlocks ys :=
  toBlocks_append16_aux xs.length xs rfl hmod ys

/-- CBC encryption over a block list, chaining from the given IV. -/
def cbcEnc (k : Blk) : Blk → List Blk → List Blk
  | _, [] => []
  | iv, p :: rest => encBlock k (p.bxor iv) :: cbcEnc k (encBlock k (p.bxor iv)) rest

/-- CBC decryption over a block list, chaining from the given IV. -/
def cbcDec (k : Blk) : Blk → List Blk → List Blk
  | _, [] => []
  | iv, c :: rest => (decBlock k c).bxor iv :: cbcDec k c rest

theorem cbcEnc_length (k : Blk) :
    ∀ (bs : List Blk) (iv : Blk), (cbcEnc k iv bs).length = bs.length := by
  intro bs
  induction bs with
  | nil => intro iv; rfl
  | cons p rest ih => intro iv; rw [cbcEnc]; simp [ih]

theorem cbcDec_cbcEnc {k : Blk} (hk : k.Valid) :
    ∀ (bs : List Blk) (iv : Blk), iv.Valid → (∀ b ∈ bs, b.Valid) →
      cbcDec k iv (cbcEnc k iv bs) = bs := by
  intro bs
  induction bs with
  | nil => intro iv _ _; rfl
  | cons p rest ih =>
    intro iv hiv hbs
    rw [cbcEnc, cbcDec]
    have hpv : p.Valid := hbs p (by simp)
    have hc : (encBlock k (p.bxor iv)).Valid := encBlock_valid hk (Blk.bxor_valid hpv hiv)
    rw [decBlock_encBlock hk (Blk.bxor_valid hpv hiv), Blk.bxor_cancel,
      ih _ hc (fun b hb => hbs b (by simp [hb]))]

/-- The last cipher block produced so far, or the IV when none was. -/
def lastIv (iv : Blk) : List Blk → Blk
  | [] => iv
  | c :: cs => lastIv c cs

theorem cbcEnc_append (k : Blk) :
    ∀ (xs ys : List Blk) (iv : Blk),
      cbcEnc k iv (xs ++ ys) = cbcEnc k iv xs ++ cbcEnc k (lastIv iv (cbcEnc k iv xs)) ys := by
  intro xs
  induction xs with
  | nil => intro ys iv; rfl
  | cons p rest ih =>
    intro ys iv
    simp only [List.cons_append]
    rw [cbcEnc, cbcEnc, ih ys, lastIv, List.cons_append]

theorem ofBlocks_append :
    ∀ xs ys : List Blk, ofBlocks (xs ++ ys) = ofBlocks xs ++ ofBlocks ys := by
  intro xs ys
  induction xs with
  | nil => rfl
  | cons b rest ih => simp only [List.cons_append]; rw [ofBlocks, ofBlocks, ih]; rfl

/-- Modelled from the spec: how many PKCS7 padding bytes encryption appends
to a plaintext of length `n` (always between 1 and 16). -/
def padLen (n : Nat) : Nat := 16 - n % 16

/-- Modelled from the spec: PKCS7 padding, each of the appended bytes being
the count of appended bytes. -/
def pad (p : List Nat) : List Nat :=
  p ++ List.replicate (padLen p.length) (padLen p.length)

/-- Modelled from the spec: PKCS7 pad validation and removal on decrypt;
`none` is the padding error. -/
def unpad (l : List Nat) : Option (List Nat) :=
  match l.getLast? with
  | none => none
  | some m =>
    if 1 ≤ m ∧ m ≤ 16 ∧ m ≤ l.length ∧ (l.drop (l.length - m)).all (fun b => b == m)
    then some (l.take (l.length - m))
    else none

theorem pad_length (p : List Nat) : (pad p).length = p.length + (16 - p.length % 16) := by
  simp [pad, padLen]

theorem pad_length_mod (p : List Nat) : (pad p).length % 16 = 0 := by
  rw [pad_length]
  omega

theorem pad_valid {p : List Nat} (hp : ∀ x ∈ p, x < 256) :
    ∀ x ∈ pad p, x < 256 := by
  intro x hx
  rcases List.mem_append.mp hx with h | h
  · exact hp x h
  · have := List.eq_of_mem_replicate h
    subst this
    unfold padLen
    omega

theorem getLast?_replicate_pos {m x : Nat} (hm : 0 < m) :
    (List.replicate m x).getLast? = some x := by
  induction m with
  | zero => omega
  | succ n ih =>
    rcases Nat.eq_zero_or_pos n with rfl | hn
    · rfl
    · rw [List.replicate_succ, List.getLast?_cons, ih hn]
      cases hr : List.replicate n x with
      | nil => exact absurd (congrArg List.length hr) (by simp; omega)
      | cons y ys => simp [List.getLastD]

theorem all_replicate_self (m x : Nat) :
    (List.replicate m x).all (fun b => b == x) = true := by
  induction m with
  | zero => rfl
  | succ n ih => simp [List.replicate_succ, ih]

theorem unpad_pad (p : List Nat) : unpad (pad p) = some p := by
  have hm1 : 1 ≤ padLen p.length := by unfold padLen; omega
  have hm16 : padLen p.length ≤ 16 := by unfold padLen; omega
  have hne : List.replicate (padLen p.length) (padLen p.length) ≠ [] := by
    intro h
    have := congrArg List.length h
    simp at this
    omega
  have hlast : (pad p).getLast? = some (padLen p.length) := by
    unfold pad
    rw [List.getLast?_append_of_ne_nil _ hne, getLast?_replicate_pos hm1]
  have hlen : (pad p).length = p.length + padLen p.length := by
    simp [pad]
  have hsub : (pad p).length - padLen p.length = p.length := by omega
  unfold unpad
  simp only [hlast]
  have hdrop : (pad p).drop ((pad p).length - padLen p.length) =
      List.replicate (padLen p.length) (padLen p.length) := by
    rw [hsub]
    unfold pad
    exact List.drop_left p _
  have htake : (pad p).take ((pad p).length - padLen p.length) = p := by
    rw [hsub]
    unfold pad
    exact List.take_left p _
  rw [if_pos ⟨hm1, hm16, by omega, by rw [hdrop]; exact all_replicate_self _ _⟩, htake]

/-- The fixed compile-time IV `CEPH_AES_IV = "cephsageyudagreg"`, shared by
all keys of the AES algorithm (crypto.cc lines 134-145 import exactly this
constant into the legacy handler). -/
def ivBlk : Blk := ⟨99, 101, 112, 104, 115, 97, 103, 101, 121, 117, 100, 97, 103, 114, 101, 103⟩

theorem ivBlk_valid : ivBlk.Valid := by decide

/-- Import a secret's first sixteen bytes as the AES-128 cipher key. -/
def blkOfList (l : List Nat) : Blk :=
  ⟨l.getD 0 0, l.getD 1 0, l.getD 2 0, l.getD 3 0,
   l.getD 4 0, l.getD 5 0, l.getD 6 0, l.getD 7 0,
   l.getD 8 0, l.getD 9 0, l.getD 10 0, l.getD 11 0,
   l.getD 12 0, l.getD 13 0, l.getD 14 0, l.getD 15 0⟩

theorem getD_lt : ∀ (l : List Nat) (i : Nat), (∀ x ∈ l, x < 256) → l.getD i 0 < 256 := by
  intro l
  induction l with
  | nil => intro i _; simp [List.getD]
  | cons a rest ih =>
    intro i hv
    cases i with
    | zero => exact hv a (by simp)
    | succ j => exact ih j (fun x hx => hv x (by simp [hx]))

theorem blkOfList_valid {l : List Nat} (hv : ∀ x ∈ l, x < 256) : (blkOfList l).Valid :=
  ⟨getD_lt l 0 hv, getD_lt l 1 hv, getD_lt l 2 hv, getD_lt l 3 hv,
   getD_lt l 4 hv, getD_lt l 5 hv, getD_lt l 6 hv, getD_lt l 7 hv,
   getD_lt l 8 hv, getD_lt l 9 hv, getD_lt l 10 hv, getD_lt l 11 hv,
   getD_lt l 12 hv, getD_lt l 13 hv, getD_lt l 14 hv, getD_lt l 15 hv⟩

/-- Modelled from the spec: the current backend's allocating encrypt
(`CryptoAESKeyHandler::encrypt` is outside the snapshot) — AES-128-CBC with
the fixed IV over the PKCS7-padded plaintext. -/
def aes_encrypt (secret p : List Nat) : List Nat :=
  ofBlocks (cbcEnc (blkOfList secret) ivBlk (toBlocks (pad p)))

/-- Modelled from the spec: the current backend's allocating decrypt —
AES-128-CBC decryption followed by pad validation/removal; `none` covers a
ciphertext length that is not a block multiple or a corrupt pad. -/
def aes_decrypt (secret c : List Nat) : Option (List Nat) :=
  if c.length % 16 = 0 then
    unpad (ofBlocks (cbcDec (blkOfList secret) ivBlk (toBlocks c)))
  else none

theorem aes_encrypt_length (secret p : List Nat) :
    (aes_encrypt secret p).length = p.length + (16 - p.length % 16) := by
  unfold aes_encrypt
  rw [ofBlocks_length, cbcEnc_length]
  have h16 : 16 * (toBlocks (pad p)).length = (pad p).length := by
    rw [← ofBlocks_length, ofBlocks_toBlocks (pad_length_mod p)]
  rw [h16, pad_length]

theorem aes_encrypt_length_mod (secret p : List Nat) :
    (aes_encrypt secret p).length % 16 = 0 := by
  rw [aes_encrypt_length]
  omega

theorem aes_roundtrip {s p : List Nat} (hs : ∀ x ∈ s, x < 256) (hp : ∀ x ∈ p, x < 256) :
    aes_decrypt s (aes_encrypt s p) = some p := by
  unfold aes_decrypt
  rw [if_pos (aes_encrypt_length_mod s p)]
  unfold aes_encrypt
  rw [toBlocks_ofBlocks,
    cbcDec_cbcEnc (blkOfList_valid hs) _ ivBlk ivBlk_valid
      (toBlocks_valid (pad_length_mod p) (pad_valid hp)),
    ofBlocks_toBlocks (pad_length_mod p), unpad_pad]

/-- Modelled from the spec: `CryptoAES::validate_secret` (outside the
snapshot) — a secret strictly shorter than the 16-byte block size is
rejected with `-EINVAL` (-22); any secret of 16 bytes or more is accepted,
with no upper bound. -/
def validate_secret (secret : List Nat) : Int :=
  if secret.length < 16 then -22 else 0

/-- Modelled from the spec: `CryptoKey::get_max_outbuf_size` (outside the
snapshot) — the output-size bound for a transform of `n` bytes, defined by
the same formula as the encrypt padding. -/
def get_max_outbuf_size (n : Nat) : Nat := n + (16 - n % 16)

/-- Modelled from the spec: the slice/zero-copy encrypt
(`CryptoKeyHandler::encrypt(in_slice_t, out_slice_t)`, outside the
snapshot).  A zero-capacity output slice is the probe form: the needed
size is returned with no cryptographic work done.  Otherwise the
ciphertext is written when it fits; an undersized non-probe buffer is a
contract violation (`none`).  The result pairs the returned byte count
with the bytes written. -/
def encrypt_slice (secret inSlice : List Nat) (outCap : Nat) : Option (Nat × List Nat) :=
  if outCap = 0 then some (get_max_outbuf_size inSlice.length, [])
  else
    let c := aes_encrypt secret inSlice
    if c.length ≤ outCap then some (c.length, c) else none

/-- Modelled from the spec: the slice/zero-copy decrypt — the output slice
capacity must be at least `get_max_outbuf_size` of the ciphertext length;
the unpadded plaintext and its actual length are produced. -/
def decrypt_slice (secret inSlice : List Nat) (outCap : Nat) : Option (Nat × List Nat) :=
  match aes_decrypt secret inSlice with
  | none => none
  | some p => if p.length ≤ outCap then some (p.length, p) else none

/-- A constructed per-key cipher handle: the retained secret and the cipher
parameter (IV) the handle was initialised with. -/
structure KeyHandle where
  hsecret : List Nat
  hiv : Blk
  deriving DecidableEq

/-- Mirrors `LegacyCryptoAESKeyHandler::init` (crypto.cc lines 114-148):
the handler retains the secret and always builds its cipher parameter from
the fixed compile-time constant `CEPH_AES_IV`, never from per-call
randomness. -/
def initHandle (s : List Nat) : KeyHandle := ⟨s, ivBlk⟩

/-- Encrypt through a handle, chaining from the handle's stored IV. -/
def KeyHandle.encrypt (h : KeyHandle) (p : List Nat) : List Nat :=
  ofBlocks (cbcEnc (blkOfList h.hsecret) h.hiv (toBlocks (pad p)))

/-- The legacy backend's encrypt as structured by `nss_aes_operation`
(crypto.cc lines 32-84): `PK11_CipherOp` transforms the input's full
16-byte blocks, then `PK11_DigestFinal` pads the remaining fragment and
transforms it, chaining from the last block `CipherOp` produced.  The NSS
`CKM_AES_CBC_PAD` primitive itself is the spec's black-box AES-CBC. -/
def legacy_encrypt (secret p : List Nat) : List Nat :=
  let k := blkOfList secret
  let head := p.take (16 * (p.length / 16))
  let tail := p.drop (16 * (p.length / 16))
  let c1 := cbcEnc k ivBlk (toBlocks head)
  let c2 := cbcEnc k (lastIv ivBlk c1) (toBlocks (pad tail))
  ofBlocks c1 ++ ofBlocks c2

/-- The legacy backend's decrypt (`nss_aes_operation` with `CKA_DECRYPT`):
the black-box `CKM_AES_CBC_PAD` decryption, i.e. fixed-IV CBC block
decryption followed by pad validation/removal. -/
def legacy_decrypt (secret c : List Nat) : Option (List Nat) :=
  if c.length % 16 = 0 then
    unpad (ofBlocks (cbcDec (blkOfList secret) ivBlk (toBlocks c)))
  else none

/-- The control flow of `nss_aes_operation` (crypto.cc lines 32-84), with
the outcomes of the two NSS calls (`PK11_CipherOp`, then
`PK11_DigestFinal`) passed as parameters: each either fails with a PR
error code or yields the bytes it wrote.  On either failure the function
returns -1 with the diagnostic message and leaves `out` untouched; on
success it returns 0 and appends both outputs to `out`. -/
def nss_aes_operation (cipherOp digestFinal : Except Int (List Nat)) (out : List Nat) :
    Int × List Nat × String :=
  match cipherOp with
  | .error e => (-1, out, "NSS AES failed: " ++ toString e)
  | .ok w1 =>
    match digestFinal with
    | .error e => (-1, out, "NSS AES final round failed: " ++ toString e)
    | .ok w2 => (0, out ++ (w1 ++ w2), "")

/-- Modelled from the spec: the allocating decrypt surface, turning a
padding failure into an error that carries a human-readable diagnostic and
no output bytes. -/
def decrypt_alloc (secret c : List Nat) : Except String (List Nat) :=
  match aes_decrypt secret c with
  | some p => .ok p
  | none => .error "error decrypting: invalid padding"

theorem pad_split (p : List Nat) :
    pad p = p.take (16 * (p.length / 16)) ++ pad (p.drop (16 * (p.length / 16))) := by
  have htail : (p.drop (16 * (p.length / 16))).length = p.length % 16 := by
    simp [List.length_drop]
    omega
  have hpl : padLen (p.drop (16 * (p.length / 16))).length = padLen p.length := by
    rw [htail]
    unfold padLen
    omega
  unfold pad
  rw [hpl, ← List.append_assoc, List.take_append_drop]

theorem take_blocks_length_mod (p : List Nat) :
    (p.take (16 * (p.length / 16))).length % 16 = 0 := by
  simp [List.length_take]
  omega

theorem legacy_encrypt_eq (secret p : List Nat) :
    legacy_encrypt secret p = aes_encrypt secret p := by
  unfold legacy_encrypt aes_encrypt
  rw [pad_split p, toBlocks_append16 (take_blocks_length_mod p), cbcEnc_append,
    ofBlocks_append]

/-- Little-endian encoding of `n` into exactly `w` bytes (the generic
fixed-width integer encoder of the marshalling mechanism). -/
def toLE : Nat → Nat → List Nat
  | 0, _ => []
  | w + 1, n => n % 256 :: toLE w (n / 256)

/-- Little-endian decoding of a byte list. -/
def fromLE : List Nat → Nat
  | [] => 0
  | b :: rest => b + 256 * fromLE rest

/-- Read a `w`-byte little-endian integer off the front of a byte list,
returning it with the remaining bytes. -/
def readLE (w : Nat) (l : List Nat) : Option (Nat × List Nat) :=
  if w ≤ l.length then some (fromLE (l.take w), l.drop w) else none

theorem toLE_length : ∀ (w n : Nat), (toLE w n).length = w := by
  intro w
  induction w with
  | zero => intro n; rfl
  | succ v ih => intro n; simp [toLE, ih]

theorem fromLE_toLE : ∀ (w n : Nat), n < 256 ^ w → fromLE (toLE w n) = n := by
  intro w
  induction w with
  | zero =>
    intro n hn
    simp at hn
    simp [hn, toLE, fromLE]
  | succ v ih =>
    intro n hn
    have hdiv : n / 256 < 256 ^ v := by
      rw [Nat.div_lt_iff_lt_mul (by norm_num)]
      calc n < 256 ^ (v + 1) := hn
        _ = 256 ^ v * 256 := by rw [Nat.pow_succ]
    rw [toLE, fromLE, ih _ hdiv, Nat.mod_add_div]

theorem readLE_toLE (w n : Nat) (rest : List Nat) (h : n < 256 ^ w) :
    readLE w (toLE w n ++ rest) = some (n, rest) := by
  unfold readLE
  have hlen : (toLE w n ++ rest).length = w + rest.length := by
    simp [toLE_length]
  rw [if_pos (by omega)]
  have htake : (toLE w n ++ rest).take w = toLE w n := by
    have := List.take_left (toLE w n) rest
    rwa [toLE_length] at this
  have hdrop : (toLE w n ++ rest).drop w = rest := by
    have := List.drop_left (toLE w n) rest
    rwa [toLE_length] at this
  rw [htake, hdrop, fromLE_toLE w n h]

/-- The `Key` composite: algorithm tag, creation time (seconds and
nanoseconds) and the secret bytes (crypto.cc line 491 constructs one as
`CryptoKey(CEPH_CRYPTO_AES, ceph_clock_now(), k)`; the class itself is
outside the snapshot). -/
structure CryptoKey where
  ktype : Nat
  sec : Nat
  nsec : Nat
  secret : List Nat
  deriving DecidableEq

/-- Modelled from the spec: the Key composite's binary layout — fixed-width
algorithm tag, fixed-width seconds+nanoseconds creation timestamp, then the
length-prefixed secret byte buffer. -/
def CryptoKey.encode (k : CryptoKey) : List Nat :=
  toLE 2 k.ktype ++ toLE 4 k.sec ++ toLE 4 k.nsec ++ toLE 4 k.secret.length ++ k.secret

/-- Modelled from the spec: decoding of the Key layout, returning the Key
and the remaining bytes. -/
def CryptoKey.decode (l : List Nat) : Option (CryptoKey × List Nat) :=
  match readLE 2 l with
  | none => none
  | some (t, l) =>
  match readLE 4 l with
  | none => none
  | some (s, l) =>
  match readLE 4 l with
  | none => none
  | some (ns, l) =>
  match readLE 4 l with
  | none => none
  | some (len, l) =>
  if len ≤ l.length then some (⟨t, s, ns, l.take len⟩, l.drop len) else none

theorem CryptoKey.decode_encode (k : CryptoKey) (rest : List Nat)
    (ht : k.ktype < 65536) (hs : k.sec < 4294967296) (hns : k.nsec < 4294967296)
    (hlen : k.secret.length < 4294967296) :
    CryptoKey.decode (k.encode ++ rest) = some (k, rest) := by
  have ht2 : k.ktype < 256 ^ 2 := by norm_num; omega
  have hs4 : k.sec < 256 ^ 4 := by norm_num; omega
  have hns4 : k.nsec < 256 ^ 4 := by norm_num; omega
  have hlen4 : k.secret.length < 256 ^ 4 := by norm_num; omega
  unfold CryptoKey.encode CryptoKey.decode
  simp only [List.append_assoc, readLE_toLE, ht2, hs4, hns4, hlen4]
  rw [if_pos (by simp)]
  rw [List.take_left, List.drop_left]

/-- The header record `MOSDOpReply::st_t` (MOSDOpReply.h lines 33-52): a
plain fixed-layout record.  Each integral field is modelled as the natural
number holding its fixed-width bit pattern (`result` and the offsets are
stored two's-complement); `commit` is the one-byte bool. -/
structure OsdReplySt where
  reqid : Nat
  oid : Nat
  layout : Nat
  op : Nat
  result : Nat
  commit : Bool
  length : Nat
  offset : Nat
  object_size : Nat
  version : Nat
  pg_complete_thru : Nat
  map_epoch : Nat
  deriving DecidableEq

/-- Modelled from the spec: the generic `_encode` of a fixed-layout record
(`::_encode(st, payload)` in MOSDOpReply.h line 115; the mechanism itself
is outside the snapshot) — the fields serialized in declaration order at
their fixed widths. -/
def encodeSt (st : OsdReplySt) : List Nat :=
  toLE 12 st.reqid ++ toLE 16 st.oid ++ toLE 16 st.layout ++ toLE 4 st.op ++
  toLE 4 st.result ++ toLE 1 (if st.commit then 1 else 0) ++ toLE 8 st.length ++
  toLE 8 st.offset ++ toLE 8 st.object_size ++ toLE 12 st.version ++
  toLE 12 st.pg_complete_thru ++ toLE 4 st.map_epoch

/-- Modelled from the spec: the generic `_decode` of the same fixed-layout
record, returning it with the remaining bytes. -/
def decodeSt (l : List Nat) : Option (OsdReplySt × List Nat) :=
  match readLE 12 l with
  | none => none
  | some (reqid, l) =>
  match readLE 16 l with
  | none => none
  | some (oid, l) =>
  match readLE 16 l with
  | none => none
  | some (layout, l) =>
  match readLE 4 l with
  | none => none
  | some (op, l) =>
  match readLE 4 l with
  | none => none
  | some (result, l) =>
  match readLE 1 l with
  | none => none
  | some (commit, l) =>
  match readLE 8 l with
  | none => none
  | some (len, l) =>
  match readLE 8 l with
  | none => none
  | some (offset, l) =>
  match readLE 8 l with
  | none => none
  | some (objsz, l) =>
  match readLE 12 l with
  | none => none
  | some (version, l) =>
  match readLE 12 l with
  | none => none
  | some (pgct, l) =>
  match readLE 4 l with
  | none => none
  | some (epoch, l) =>
  some (⟨reqid, oid, layout, op, result, commit != 0, len, offset, objsz, version, pgct, epoch⟩, l)

/-- All fields of the record fit their fixed widths. -/
def OsdReplySt.Valid (st : OsdReplySt) : Prop :=
  st.reqid < 256 ^ 12 ∧ st.oid < 256 ^ 16 ∧ st.layout < 256 ^ 16 ∧ st.op < 256 ^ 4 ∧
  st.result < 256 ^ 4 ∧ st.length < 256 ^ 8 ∧ st.offset < 256 ^ 8 ∧
  st.object_size < 256 ^ 8 ∧ st.version < 256 ^ 12 ∧ st.pg_complete_thru < 256 ^ 12 ∧
  st.map_epoch < 256 ^ 4

instance (st : OsdReplySt) : Decidable st.Valid := by
  unfold OsdReplySt.Valid
  infer_instance

theorem decodeSt_encodeSt (st : OsdReplySt) (rest : List Nat) (hv : st.Valid) :
    decodeSt (encodeSt st ++ rest) = some (st, rest) := by
  obtain ⟨h0, h1, h2, h3, h4, h6, h7, h8, h9, h10, h11⟩ := hv
  have h5 : (if st.commit then 1 else 0) < 256 ^ 1 := by split <;> norm_num
  have hb : ((if st.commit then 1 else 0) != 0) = st.commit := by
    cases st.commit <;> rfl
  unfold encodeSt decodeSt
  simp only [List.append_assoc, readLE_toLE, h0, h1, h2, h3, h4, h5, h6, h7, h8,
    h9, h10, h11, hb]

/-- Modelled from the spec: a length-prefixed byte buffer of the
marshalling mechanism. -/
def encodeBuf (s : List Nat) : List Nat := toLE 4 s.length ++ s

/-- Read one length-prefixed byte buffer. -/
def readBuf (l : List Nat) : Option (List Nat × List Nat) :=
  match readLE 4 l with
  | none => none
  | some (len, l) =>
    if len ≤ l.length then some (l.take len, l.drop len) else none

/-- Modelled from the spec: the entry list of a serialized
`map<string, bufferptr>` — each entry a length-prefixed name followed by a
length-prefixed value. -/
def encodeEntries : List (List Nat × List Nat) → List Nat
  | [] => []
  | e :: m => encodeBuf e.1 ++ encodeBuf e.2 ++ encodeEntries m

/-- Read `n` map entries. -/
def readEntries : Nat → List Nat → Option (List (List Nat × List Nat) × List Nat)
  | 0, l => some ([], l)
  | n + 1, l =>
    match readBuf l with
    | none => none
    | some (name, l) =>
    match readBuf l with
    | none => none
    | some (val, l) =>
    match readEntries n l with
    | none => none
    | some (entries, l) => some ((name, val) :: entries, l)

/-- Modelled from the spec: the serialized map — entry count then the
entries. -/
def encodeMap (m : List (List Nat × List Nat)) : List Nat :=
  toLE 4 m.length ++ encodeEntries m

/-- Read a serialized map. -/
def readMap (l : List Nat) : Option (List (List Nat × List Nat) × List Nat) :=
  match readLE 4 l with
  | none => none
  | some (n, l) => readEntries n l

theorem readBuf_encodeBuf (s rest : List Nat) (h : s.length < 4294967296) :
    readBuf (encodeBuf s ++ rest) = some (s, rest) := by
  have h4 : s.length < 256 ^ 4 := by norm_num; omega
  unfold encodeBuf readBuf
  simp only [List.append_assoc, readLE_toLE, h4]
  rw [if_pos (by simp)]
  rw [List.take_left, List.drop_left]

/-- All entries of the map have names and values whose lengths fit the
length prefix. -/
def MapValid (m : List (List Nat × List Nat)) : Prop :=
  ∀ e ∈ m, e.1.length < 4294967296 ∧ e.2.length < 4294967296

instance (m : List (List Nat × List Nat)) : Decidable (MapValid m) := by
  unfold MapValid
  infer_instance

theorem readEntries_encodeEntries :
    ∀ (m : List (List Nat × List Nat)) (rest : List Nat), MapValid m →
      readEntries m.length (encodeEntries m ++ rest) = some (m, rest) := by
  intro m
  induction m with
  | nil => intro rest _; rfl
  | cons e m ih =>
    intro rest hv
    have he := hv e (by simp)
    rw [List.length_cons, encodeEntries, readEntries]
    simp only [List.append_assoc, readBuf_encodeBuf _ _ he.1, readBuf_encodeBuf _ _ he.2,
      ih rest (fun x hx => hv x (by simp [hx]))]

theorem readMap_encodeMap (m : List (List Nat × List Nat)) (rest : List Nat)
    (hv : MapValid m) (hn : m.length < 4294967296) :
    readMap (encodeMap m ++ rest) = some (m, rest) := by
  have h4 : m.length < 256 ^ 4 := by norm_num; omega
  unfold encodeMap readMap
  simp only [List.append_assoc, readLE_toLE, h4]
  exact readEntries_encodeEntries m rest hv

/-- `MOSDOpReply::encode_payload` (MOSDOpReply.h lines 114-118): the header
record followed by the attribute map. -/
def encode_payload (st : OsdReplySt) (attrset : List (List Nat × List Nat)) : List Nat :=
  encodeSt st ++ encodeMap attrset

/-- `MOSDOpReply::decode_payload` (MOSDOpReply.h lines 109-113): decode the
header record, then the attribute map, off the payload. -/
def decode_payload (payload : List Nat) :
    Option (OsdReplySt × List (List Nat × List Nat)) :=
  match decodeSt payload with
  | none => none
  | some (st, l) =>
  match readMap l with
  | none => none
  | some (attrset, _) => some (st, attrset)

theorem decode_encode_payload (st : OsdReplySt) (attrset : List (List Nat × List Nat))
    (hst : st.Valid) (hm : MapValid attrset) (hn : attrset.length < 4294967296) :
    decode_payload (encode_payload st attrset) = some (st, attrset) := by
  have hmap := readMap_encodeMap attrset [] hm hn
  rw [List.append_nil] at hmap
  unfold encode_payload decode_payload
  simp only [decodeSt_encodeSt st _ hst, hmap]

/-- The 16-byte secret `00 01 02 .. 0f` used by the AES tests. -/
def testKey : List Nat := [0, 1, 2, 3, 4, 5, 6, 7, 8, 9, 10, 11, 12, 13, 14, 15]

/-- The 16-byte plaintext `00 11 22 .. ff` used by the AES tests. -/
def testPlain : List Nat :=
  [0, 17, 34, 51, 68, 85, 102, 119, 136, 153, 170, 187, 204, 221, 238, 255]

/-- The 32-byte expected ciphertext of `TEST(AES, Encrypt)`. -/
def testCipher : List Nat :=
  [179, 143, 91, 201, 53, 76, 248, 198, 19, 21, 102, 111, 55, 215, 121, 58,
   17, 144, 123, 233, 216, 60, 53, 112, 88, 123, 151, 155, 3, 210, 165, 1]

/-- C1: for every 16-byte key and every plaintext, the legacy backend
(`LegacyCryptoAESKeyHandler`, whose `nss_aes_operation` streams the full
blocks through `PK11_CipherOp` and pads the rest in `PK11_DigestFinal`)
produces byte-identical ciphertext to the current backend's one-shot
encrypt, and each backend decrypts the other's ciphertext back to the
original plaintext. -/
theorem claim_C1_backend_interop (s p : List Nat) (hs16 : s.length = 16)
    (hs : ∀ x ∈ s, x < 256) (hp : ∀ x ∈ p, x < 256) :
    legacy_encrypt s p = aes_encrypt s p ∧
    aes_decrypt s (legacy_encrypt s p) = some p ∧
    legacy_decrypt s (aes_encrypt s p) = some p := by
  have heq := legacy_encrypt_eq s p
  have hrt := aes_roundtrip hs hp
  have hleg : legacy_decrypt s (aes_encrypt s p) = aes_decrypt s (aes_encrypt s p) := rfl
  exact ⟨heq, by rw [heq]; exact hrt, by rw [hleg]; exact hrt⟩

theorem claim_C1_backend_interop_witness :
    legacy_encrypt testKey testPlain = aes_encrypt testKey testPlain ∧
    aes_decrypt testKey (legacy_encrypt testKey testPlain) = some testPlain ∧
    legacy_decrypt testKey (aes_encrypt testKey testPlain) = some testPlain :=
  claim_C1_backend_interop testKey testPlain (by decide) (by decide) (by decide)

/-- C2: encrypting the key `00 01 .. 0f` applied to the plaintext
`00 11 22 .. ff` yields exactly the 32-byte ciphertext of
`TEST(AES, Encrypt)`, via both the allocating and the slice encrypt API,
and decrypting that ciphertext with the same key returns exactly the
original plaintext. -/
theorem claim_C2_concrete_vectors :
    aes_encrypt testKey testPlain = testCipher ∧
    encrypt_slice testKey testPlain 32 = some (32, testCipher) ∧
    aes_decrypt testKey testCipher = some testPlain := by
  refine ⟨by decide, by decide, by decide⟩

/-- C3: for every plaintext, the encrypt output length is
`n + (16 - n % 16)`, so between 1 and 16 padding bytes are always added
(a full extra block when `n` is a multiple of 16), and
`get_max_outbuf_size` is this identical formula. -/
theorem claim_C3_padding_formula (s p : List Nat) :
    (aes_encrypt s p).length = p.length + (16 - p.length % 16) ∧
    1 ≤ 16 - p.length % 16 ∧ 16 - p.length % 16 ≤ 16 ∧
    get_max_outbuf_size p.length = p.length + (16 - p.length % 16) :=
  ⟨aes_encrypt_length s p, by omega, by omega, rfl⟩

/-- C4: for every valid key and plaintext (any byte lists, including the
empty plaintext), decrypting the encryption returns exactly the original
plaintext. -/
theorem claim_C4_round_trip (s p : List Nat)
    (hs : ∀ x ∈ s, x < 256) (hp : ∀ x ∈ p, x < 256) :
    aes_decrypt s (aes_encrypt s p) = some p :=
  aes_roundtrip hs hp

theorem claim_C4_round_trip_witness :
    aes_decrypt testKey (aes_encrypt testKey []) = some [] :=
  claim_C4_round_trip testKey [] (by decide) (by decide)

/-- C5: `validate_secret` fails with `-EINVAL` for every secret shorter
than 16 bytes and succeeds for every secret of 16 bytes or more, with no
upper bound. -/
theorem claim_C5_validate_secret (s : List Nat) :
    (s.length < 16 → validate_secret s = -22) ∧
    (16 ≤ s.length → validate_secret s = 0) := by
  constructor
  · intro h
    unfold validate_secret
    rw [if_pos h]
  · intro h
    unfold validate_secret
    rw [if_neg (by omega)]

theorem claim_C5_validate_secret_witness :
    validate_secret (List.replicate 15 0) = -22 ∧
    validate_secret (List.replicate 16 0) = 0 ∧
    validate_secret (List.replicate 49 0) = 0 :=
  ⟨(claim_C5_validate_secret (List.replicate 15 0)).1 (by decide),
   (claim_C5_validate_secret (List.replicate 16 0)).2 (by decide),
   (claim_C5_validate_secret (List.replicate 49 0)).2 (by decide)⟩

/-- C6: the zero-capacity probe call of the slice encrypt API returns,
without cryptographic work, exactly the byte count that a real call with
a buffer of at least that size writes and returns. -/
theorem claim_C6_probe_accuracy (s inS : List Nat) (cap : Nat)
    (hcap : get_max_outbuf_size inS.length ≤ cap) :
    encrypt_slice s inS 0 = some (get_max_outbuf_size inS.length, []) ∧
    encrypt_slice s inS cap = some (get_max_outbuf_size inS.length, aes_encrypt s inS) ∧
    (aes_encrypt s inS).length = get_max_outbuf_size inS.length := by
  have hlen : (aes_encrypt s inS).length = get_max_outbuf_size inS.length :=
    aes_encrypt_length s inS
  have hpos : 1 ≤ get_max_outbuf_size inS.length := by
    unfold get_max_outbuf_size
    omega
  refine ⟨by unfold encrypt_slice; rw [if_pos rfl], ?_, hlen⟩
  unfold encrypt_slice
  rw [if_neg (by omega), if_pos (by omega), hlen]

theorem claim_C6_probe_accuracy_witness :
    encrypt_slice testKey testPlain 0 = some (get_max_outbuf_size testPlain.length, []) ∧
    encrypt_slice testKey testPlain 32 =
      some (get_max_outbuf_size testPlain.length, aes_encrypt testKey testPlain) ∧
    (aes_encrypt testKey testPlain).length = get_max_outbuf_size testPlain.length :=
  claim_C6_probe_accuracy testKey testPlain 32 (by decide)

/-- C7: encryption is deterministic — any two handles initialised from the
same secret carry the same fixed compile-time IV and produce identical
ciphertext for a fixed plaintext, and that ciphertext is the pure function
`aes_encrypt` of (key, plaintext) alone. -/
theorem claim_C7_determinism (s p : List Nat) (h1 h2 : KeyHandle)
    (hh1 : h1 = initHandle s) (hh2 : h2 = initHandle s) :
    h1.encrypt p = h2.encrypt p ∧ h1.hiv = ivBlk ∧
    (initHandle s).encrypt p = aes_encrypt s p := by
  subst hh1
  subst hh2
  exact ⟨rfl, rfl, rfl⟩

theorem claim_C7_determinism_witness :
    (initHandle testKey).encrypt testPlain = (initHandle testKey).encrypt testPlain ∧
    (initHandle testKey).hiv = ivBlk ∧
    (initHandle testKey).encrypt testPlain = aes_encrypt testKey testPlain :=
  claim_C7_determinism testKey testPlain (initHandle testKey) (initHandle testKey) rfl rfl

/-- C8: when a transform call fails (`PK11_CipherOp` or `PK11_DigestFinal`
failure in `nss_aes_operation`, or invalid padding on decrypt), the call
returns an error carrying a non-empty human-readable diagnostic and
appends no bytes to the output buffer; bytes are appended only on
success. -/
theorem claim_C8_failure_no_partial_output (cOp dFin : Except Int (List Nat))
    (out s c : List Nat) :
    ((nss_aes_operation cOp dFin out).1 ≠ 0 →
      (nss_aes_operation cOp dFin out).2.1 = out ∧
      (nss_aes_operation cOp dFin out).2.2 ≠ "") ∧
    ((nss_aes_operation cOp dFin out).1 = 0 →
      (nss_aes_operation cOp dFin out).2.2 = "" ∧
      ∃ w, (nss_aes_operation cOp dFin out).2.1 = out ++ w) ∧
    (aes_decrypt s c = none →
      decrypt_alloc s c = Except.error "error decrypting: invalid padding") := by
  refine ⟨?_, ?_, ?_⟩
  · intro h
    rcases cOp with e | w1
    · refine ⟨rfl, ?_⟩
      intro hcontra
      have hl := congrArg String.length hcontra
      simp [String.length_append, nss_aes_operation] at hl
      exact absurd hl.1 (by decide)
    · rcases dFin with e | w2
      · refine ⟨rfl, ?_⟩
        intro hcontra
        have hl := congrArg String.length hcontra
        simp [String.length_append, nss_aes_operation] at hl
        exact absurd hl.1 (by decide)
      · exact absurd rfl h
  · intro h
    rcases cOp with e | w1
    · exact absurd (show (-1 : Int) = 0 from h) (by omega)
    · rcases dFin with e | w2
      · exact absurd (show (-1 : Int) = 0 from h) (by omega)
      · exact ⟨rfl, w1 ++ w2, rfl⟩
  · intro h
    unfold decrypt_alloc
    rw [h]

theorem claim_C8_failure_no_partial_output_witness :
    (nss_aes_operation (Except.error 5) (Except.ok []) [7]).2.1 = [7] ∧
    (nss_aes_operation (Except.error 5) (Except.ok []) [7]).2.2 ≠ "" ∧
    decrypt_alloc testKey [1] = Except.error "error decrypting: invalid padding" := by
  have h := claim_C8_failure_no_partial_output (Except.error 5) (Except.ok []) [7] testKey [1]
  exact ⟨(h.1 (by decide)).1, (h.1 (by decide)).2, h.2.2 (by decide)⟩

/-- C9: decoding the binary encoding of a `Key` (algorithm tag, creation
timestamp, length-prefixed secret bytes) reproduces an operationally
identical Key — same algorithm, timestamp and secret bytes. -/
theorem claim_C9_key_roundtrip (k : CryptoKey) (ht : k.ktype < 65536)
    (hs : k.sec < 4294967296) (hns : k.nsec < 4294967296)
    (hlen : k.secret.length < 4294967296) :
    CryptoKey.decode k.encode = some (k, []) := by
  have h := CryptoKey.decode_encode k [] ht hs hns hlen
  rwa [List.append_nil] at h

theorem claim_C9_key_roundtrip_witness :
    CryptoKey.decode (CryptoKey.encode ⟨1, 1600000000, 999, testKey⟩) =
      some (⟨1, 1600000000, 999, testKey⟩, []) :=
  claim_C9_key_roundtrip ⟨1, 1600000000, 999, testKey⟩ (by decide) (by decide)
    (by decide) (by decide)

/-- C10: for every `MOSDOpReply`, running `decode_payload` on the payload
produced by `encode_payload` restores the header record `st` and the
`attrset` map to values equal to the originals. -/
theorem claim_C10_payload_roundtrip (st : OsdReplySt)
    (attrset : List (List Nat × List Nat)) (hst : st.Valid) (hm : MapValid attrset)
    (hn : attrset.length < 4294967296) :
    decode_payload (encode_payload st attrset) = some (st, attrset) :=
  decode_encode_payload st attrset hst hm hn

theorem claim_C10_payload_roundtrip_witness :
    decode_payload (encode_payload ⟨10, 2, 3, 4, 4294967295, true, 16, 0, 16, 5, 6, 7⟩
      [([97, 98], [1, 2, 3])]) =
      some (⟨10, 2, 3, 4, 4294967295, true, 16, 0, 16, 5, 6, 7⟩, [([97, 98], [1, 2, 3])]) :=
  claim_C10_payload_roundtrip ⟨10, 2, 3, 4, 4294967295, true, 16, 0, 16, 5, 6, 7⟩
    [([97, 98], [1, 2, 3])] (by decide) (by decide) (by decide)

end CephCrypto
